import Mathlib

/-!
# Crossword CSP solver: verification of `generate.py`

A shallow embedding of `CrosswordCreator` from `src/crossword/generate.py`:
node consistency, AC-3 arc-consistency propagation, and heuristic
backtracking search.  Python sets/dicts are modelled as lists/functions with
a fixed iteration order; the mutable `self.domains` store is passed
explicitly; the worklist loops take fuel and return `none` on exhaustion.
-/

namespace CrosswordCSP

/-- Modelled from the spec: a `Variable` of the Problem Graph collaborator
(`crossword.py`, not under `src/`): start coordinates, an orientation tag,
and a fixed length; equal iff all four fields match (spec §3). -/
structure Variable where
  i : Nat
  j : Nat
  down : Bool
  length : Nat
deriving DecidableEq, Repr

/-- A word is a fixed character sequence (Python `str`). -/
abbrev Word := List Char

/-- Character of `w` at index `i` (total version of Python `w[i]`; spec §7
makes out-of-range overlap indices a precondition violation that never
occurs, so the default is irrelevant on meaningful inputs). -/
def charAt (w : Word) (i : Nat) : Char := w.getD i ' '

/-- Modelled from the spec: the Problem Graph collaborator (spec §6): a set
of variables, a vocabulary, and a symmetric overlap map defined on pairs of
distinct variables. Sets are carried as lists fixing an iteration order. -/
structure Cw where
  vars : List Variable
  words : List Word
  overlaps : Variable → Variable → Option (Nat × Nat)

/-- Modelled from the spec: `neighbors(x)` of the Problem Graph collaborator
(spec §6): the variables sharing a defined overlap with `x`. -/
def neighbors (cw : Cw) (v : Variable) : List Variable :=
  cw.vars.filter (fun u => u ≠ v ∧ (cw.overlaps v u).isSome)

/-- The Domain Store `self.domains`: candidate words per variable. -/
abbrev Domains := Variable → List Word

/-- The store `self.domains` as `__init__` builds it: every variable's domain starts
as the full vocabulary. -/
def initDomains (cw : Cw) : Domains := fun _ => cw.words

/-- An assignment: Python dict from variables to words, as an association
list in insertion order. -/
abbrev Assignment := List (Variable × Word)

/-- Dict lookup `assignment[v]` (first match). -/
def lookupA : Assignment → Variable → Option Word
  | [], _ => none
  | (u, w) :: rest, v => if u = v then some w else lookupA rest v

/-- Python `enforce_node_consistency`: remove from every domain each word whose
length differs from the variable's length. -/
def enforce_node_consistency (dom : Domains) : Domains :=
  fun v => (dom v).filter (fun w => w.length == v.length)

/-- Python `revise(x, y)`: if `x` and `y` overlap at `(ix, iy)`, drop from `x`'s
domain every word with no agreeing word in `y`'s domain; return the updated
store and whether anything was removed.  No overlap: no-op, `False`. -/
def revise (cw : Cw) (dom : Domains) (x y : Variable) : Domains × Bool :=
  match cw.overlaps x y with
  | none => (dom, false)
  | some (ix, iy) =>
    let keep := (dom x).filter (fun w => (dom y).any (fun v => charAt w ix == charAt v iy))
    if keep.length == (dom x).length then (dom, false)
    else (Function.update dom x keep, true)

/-- Python `get_arc_queue()` with `var=None`: every ordered pair
`(var, neighbor)`. -/
def get_arc_queue (cw : Cw) : List (Variable × Variable) :=
  cw.vars.flatMap (fun v => (neighbors cw v).map (fun n => (v, n)))

/-- The `while arcs:` loop of `ac3`: pop left, revise, short-circuit to
`False` on an emptied domain, re-enqueue `(z, x)` for neighbors `z ≠ y` on
change.  `fuel` bounds iterations; `none` = fuel exhausted. -/
def ac3Loop (cw : Cw) : Nat → List (Variable × Variable) → Domains →
    Option (Domains × Bool)
  | 0, _, _ => none
  | _ + 1, [], dom => some (dom, true)
  | fuel + 1, (x, y) :: rest, dom =>
    let r := revise cw dom x y
    if r.2 then
      if (r.1 x).length == 0 then some (r.1, false)
      else ac3Loop cw fuel
        (rest ++ ((neighbors cw x).filter (fun z => z ≠ y)).map (fun z => (z, x))) r.1
    else ac3Loop cw fuel rest dom

/-- Python `ac3(arcs)`: start from the given worklist, or the default full arc
queue when `arcs` is `None`. -/
def ac3 (cw : Cw) (fuel : Nat) (arcs : Option (List (Variable × Variable)))
    (dom : Domains) : Option (Domains × Bool) :=
  ac3Loop cw fuel (arcs.getD (get_arc_queue cw)) dom

/-- Python `assignment_complete`: every crossword variable has a value. -/
def assignment_complete (cw : Cw) (a : Assignment) : Bool :=
  a.length == cw.vars.length

/-- Python `consistent(assignment)`: values pairwise distinct, each word's length
matches its variable, and assigned neighbors agree at their overlap. -/
def consistent (cw : Cw) (a : Assignment) : Bool :=
  decide (a.map Prod.snd).Nodup &&
  a.all (fun p =>
    (p.1.length == p.2.length) &&
    (neighbors cw p.1).all (fun n =>
      match lookupA a n with
      | none => true
      | some wn =>
        match cw.overlaps p.1 n with
        | some (i, j) => charAt p.2 i == charAt wn j
        | none => true))

/-- The neighbors of `var` not already assigned
(`neighbors - set(assignment.keys())`). -/
def unassignedNeighbors (cw : Cw) (var : Variable) (a : Assignment) :
    List Variable :=
  (neighbors cw var).filter (fun n => (lookupA a n).isNone)

/-- One iteration of the neighbor loop of `eliminate_values`: deduplicate the
neighbor's domain (`set(self.domains[neighbor])`), drop the words already in
the global `eliminated` set, and add those whose overlap character differs
from `option`'s. -/
def elimStep (cw : Cw) (dom : Domains) (var : Variable) (option : Word)
    (elim : List Word) (n : Variable) : List Word :=
  match cw.overlaps var n with
  | some (i, j) =>
    let ndom := ((dom n).dedup).filter (fun v => !(decide (v ∈ elim)))
    elim ++ ndom.filter (fun v => !(charAt option i == charAt v j))
  | none => elim

/-- Python `eliminate_values(var, option, assignment)`: walk `var`'s unassigned
neighbors accumulating one global `eliminated` set; return its final size. -/
def eliminate_values (cw : Cw) (dom : Domains) (var : Variable) (option : Word)
    (a : Assignment) : Nat :=
  ((unassignedNeighbors cw var a).foldl (elimStep cw dom var option) []).length

/-- Python `order_domain_values(var, assignment)`: `var`'s domain sorted ascending
by `eliminate_values` score.  Python's `sorted` is a stable ascending sort;
`List.insertionSort` with the non-strict score comparison is the same
stable order. -/
def order_domain_values (cw : Cw) (dom : Domains) (var : Variable)
    (a : Assignment) : List Word :=
  (dom var).insertionSort
    (fun w₁ w₂ => eliminate_values cw dom var w₁ a ≤ eliminate_values cw dom var w₂ a)

/-- First element minimising the MRV/degree key `(domain size, -degree)`;
Python `min` keeps the earliest minimum in iteration order. -/
def selectMin (cw : Cw) (dom : Domains) : List Variable → Option Variable
  | [] => none
  | v :: rest => some (rest.foldl
      (fun best u =>
        if (dom u).length < (dom best).length ∨
           ((dom u).length = (dom best).length ∧
            (neighbors cw best).length < (neighbors cw u).length)
        then u else best) v)

/-- Python `select_unassigned_variable`: the unassigned variable with the fewest
remaining domain values, ties broken by highest degree (then by iteration
order).  `none` when every variable is assigned (Python would raise). -/
def select_unassigned_variable (cw : Cw) (dom : Domains) (a : Assignment) :
    Option Variable :=
  selectMin cw dom (cw.vars.filter (fun v => (lookupA a v).isNone))

/-- The `for word in self.domains[variable]` loop of `backtrack`: try each
word, keep the first consistent extension whose recursion succeeds.
`recur` is the recursive call; outer `none` = fuel exhausted below. -/
def tryWords (cw : Cw) (recur : Assignment → Option (Option Assignment))
    (var : Variable) (a : Assignment) : List Word → Option (Option Assignment)
  | [] => some none
  | w :: ws =>
    let a' := a ++ [(var, w)]
    if consistent cw a' then
      match recur a' with
      | none => none
      | some (some r) => some (some r)
      | some none => tryWords cw recur var a ws
    else tryWords cw recur var a ws

/-- Python `backtrack(assignment)`: return the assignment once complete, otherwise
select an unassigned variable and try its domain words in stored order.
Result `some (some r)` = Python returns `r`; `some none` = Python returns
`None`; `none` = fuel exhausted (or `min` on an empty set would raise). -/
def backtrack (cw : Cw) (dom : Domains) : Nat → Assignment →
    Option (Option Assignment)
  | 0, _ => none
  | fuel + 1, a =>
    if a.length == cw.vars.length then some (some a)
    else
      match select_unassigned_variable cw dom a with
      | none => none
      | some var => tryWords cw (backtrack cw dom fuel) var a (dom var)

/-- Python `solve()`: node consistency, then `ac3()` (its boolean result ignored),
then `backtrack({})` on the pruned store. -/
def solve (cw : Cw) (fuel : Nat) : Option (Option Assignment) :=
  let d₁ := enforce_node_consistency (initDomains cw)
  match ac3 cw fuel none d₁ with
  | none => none
  | some (d₂, _) => backtrack cw d₂ fuel []

/-- State-passing rendering of the `for word ...` loop of `backtrack`: the
domain store is threaded through each recursive call and into the next
sibling iteration, exactly as Python's shared mutable `self.domains` would
be seen by sibling branches. -/
def tryWordsS (cw : Cw)
    (recur : Assignment → Domains → Option (Domains × Option Assignment))
    (var : Variable) (a : Assignment) :
    List Word → Domains → Option (Domains × Option Assignment)
  | [], dom => some (dom, none)
  | w :: ws, dom =>
    let a' := a ++ [(var, w)]
    if consistent cw a' then
      match recur a' dom with
      | none => none
      | some (dom₂, some r) => some (dom₂, some r)
      | some (dom₂, none) => tryWordsS cw recur var a ws dom₂
    else tryWordsS cw recur var a ws dom

/-- State-passing rendering of `backtrack`: statement-by-statement the same
method, with the `self.domains` store made an explicit input and output so
that any mutation of it would be observable. -/
def backtrackS (cw : Cw) : Nat → Assignment → Domains →
    Option (Domains × Option Assignment)
  | 0, _, _ => none
  | fuel + 1, a, dom =>
    if a.length == cw.vars.length then some (dom, some a)
    else
      match select_unassigned_variable cw dom a with
      | none => none
      | some var => tryWordsS cw (backtrackS cw fuel) var a (dom var) dom

/-- Modelled from the spec: the per-neighbor elimination count of §4.3 as
claim C5 reads it — for each unassigned neighbor, the number of words of its
(deduplicated) domain disagreeing at the overlap, summed over neighbors, so
a word eliminated by two different neighbors counts twice. -/
def eliminateValuesSpec (cw : Cw) (dom : Domains) (var : Variable)
    (option : Word) (a : Assignment) : Nat :=
  ((unassignedNeighbors cw var a).map
    (fun n =>
      match cw.overlaps var n with
      | some (i, j) =>
        (((dom n).dedup).filter (fun v => !(charAt option i == charAt v j))).length
      | none => 0)).sum

/-- The words `eliminate_values` counts as eliminated at one neighbor `n`:
the words of `n`'s (deduplicated) domain whose overlap character differs
from `option`'s. -/
def elimList (cw : Cw) (dom : Domains) (var : Variable) (option : Word)
    (n : Variable) : List Word :=
  match cw.overlaps var n with
  | some (i, j) =>
    ((dom n).dedup).filter (fun v => !(charAt option i == charAt v j))
  | none => []

/-- Modelled from the spec: `backtrack` as §4.3 step 3 describes it, trying
the candidate values in the heuristic order of `order_domain_values`. -/
def backtrackOrdered (cw : Cw) (dom : Domains) : Nat → Assignment →
    Option (Option Assignment)
  | 0, _ => none
  | fuel + 1, a =>
    if a.length == cw.vars.length then some (some a)
    else
      match select_unassigned_variable cw dom a with
      | none => none
      | some var =>
        tryWords cw (backtrackOrdered cw dom fuel) var a
          (order_domain_values cw dom var a)

/-- Arc consistency of `x` with respect to `y` under a domain store: every
word in `x`'s domain has a supporting word in `y`'s domain at the overlap. -/
def arcCons (cw : Cw) (dom : Domains) (x y : Variable) : Prop :=
  ∀ ix iy, cw.overlaps x y = some (ix, iy) →
    ∀ w ∈ dom x, ∃ v ∈ dom y, charAt w ix = charAt v iy

/-- The AC-3 worklist invariant: every overlapping ordered pair of crossword
variables is either still on the worklist or already arc consistent. -/
def arcInv (cw : Cw) (arcs : List (Variable × Variable)) (dom : Domains) : Prop :=
  ∀ x y, x ∈ cw.vars → y ∈ cw.vars → (cw.overlaps x y).isSome →
    (x, y) ∈ arcs ∨ arcCons cw dom x y

/-! ## Concrete instances used as witnesses and counterexamples -/

/-- A length-2 across slot at (0,0). -/
def vA : Variable := ⟨0, 0, false, 2⟩

/-- A length-2 down slot at (0,0). -/
def vD : Variable := ⟨0, 0, true, 2⟩

/-- A length-3 down slot at (0,0). -/
def vD3 : Variable := ⟨0, 0, true, 3⟩

/-- A length-2 down slot at (0,1). -/
def vD1 : Variable := ⟨0, 1, true, 2⟩

/-- One isolated variable, vocabulary `{"ab"}`. -/
def cwA : Cw := ⟨[vA], [['a', 'b']], fun _ _ => none⟩

/-- Two crossing slots sharing their first character, vocabulary
`{"aa", "ab"}`; arc consistency removes nothing here. -/
def cwB : Cw :=
  ⟨[vA, vD], [['a', 'a'], ['a', 'b']],
    fun x y =>
      if x = vA ∧ y = vD then some (0, 0)
      else if x = vD ∧ y = vA then some (0, 0) else none⟩

/-- Two crossing slots of lengths 2 and 3 with a length-2 vocabulary: node
consistency empties the length-3 domain and AC-3 then fails. -/
def cwC : Cw :=
  ⟨[vA, vD3], [['a', 'a']],
    fun x y =>
      if x = vA ∧ y = vD3 then some (0, 0)
      else if x = vD3 ∧ y = vA then some (0, 0) else none⟩

/-- Two crossing slots sharing their first character. -/
def cwD : Cw :=
  ⟨[vA, vD], [],
    fun x y =>
      if x = vA ∧ y = vD then some (0, 0)
      else if x = vD ∧ y = vA then some (0, 0) else none⟩

/-- Domain store for `cwD` where the first stored word of `vA` ("ba") has a
strictly larger least-constraining-value score than the second ("ab"). -/
def domD : Domains := fun v =>
  if v = vA then [['b', 'a'], ['a', 'b']]
  else if v = vD then [['a', 'a'], ['a', 'b'], ['b', 'b']] else []

/-- An across slot crossed by two down slots, at its characters 0 and 1. -/
def cwE : Cw :=
  ⟨[vA, vD, vD1], [],
    fun x y =>
      if x = vA ∧ y = vD then some (0, 0)
      else if x = vD ∧ y = vA then some (0, 0)
      else if x = vA ∧ y = vD1 then some (1, 0)
      else if x = vD1 ∧ y = vA then some (0, 1) else none⟩

/-- Domain store for `cwE`: both down slots' domains hold only `"bb"`. -/
def domE : Domains := fun v => if v = vA then [] else [['b', 'b']]

/-! ## Helper lemmas -/

theorem lookupA_eq_none {a : Assignment} {v : Variable} :
    lookupA a v = none ↔ v ∉ a.map Prod.fst := by
  induction a with
  | nil => simp [lookupA]
  | cons p rest ih =>
    simp only [lookupA, List.map_cons, List.mem_cons]
    by_cases h : p.1 = v
    · simp [h]
    · simp only [if_neg h, ih]
      constructor
      · intro hn h2
        rcases h2 with h2 | h2
        · exact h h2.symm
        · exact hn h2
      · intro hn h2
        exact hn (Or.inr h2)

theorem lookupA_mem {a : Assignment} {v : Variable} {w : Word}
    (h : lookupA a v = some w) : (v, w) ∈ a := by
  induction a with
  | nil => simp [lookupA] at h
  | cons p rest ih =>
    by_cases hp : p.1 = v
    · simp only [lookupA, if_pos hp] at h
      obtain ⟨p1, p2⟩ := p
      simp only at hp h
      injection h with h2
      subst hp
      subst h2
      exact List.mem_cons_self _ _
    · simp only [lookupA, if_neg hp] at h
      exact List.mem_cons_of_mem _ (ih h)

theorem lookupA_of_mem {a : Assignment} {v : Variable} {w : Word}
    (hnd : (a.map Prod.fst).Nodup) (hm : (v, w) ∈ a) : lookupA a v = some w := by
  induction a with
  | nil => simp at hm
  | cons p rest ih =>
    simp only [List.map_cons, List.nodup_cons] at hnd
    rcases List.mem_cons.mp hm with h | h
    · subst h; simp [lookupA]
    · have hne : p.1 ≠ v := by
        intro he
        exact hnd.1 (he ▸ (List.mem_map.mpr ⟨(v, w), h, rfl⟩))
      simp only [lookupA, if_neg hne]
      exact ih hnd.2 h

theorem lookupA_append {a b : Assignment} {v : Variable} :
    lookupA (a ++ b) v =
      match lookupA a v with
      | some w => some w
      | none => lookupA b v := by
  induction a with
  | nil => simp [lookupA]
  | cons p rest ih =>
    by_cases h : p.1 = v <;> simp [lookupA, h, ih]

theorem cwB_irrefl : ∀ v, cwB.overlaps v v = none := by
  intro v
  show (if v = vA ∧ v = vD then some (0, 0)
    else if v = vD ∧ v = vA then some (0, 0) else none) = none
  split_ifs with h1 h2
  · exact absurd (h1.1.symm.trans h1.2) (by decide)
  · exact absurd (h2.1.symm.trans h2.2) (by decide)
  · rfl

theorem revise_of_no_overlap {cw : Cw} {dom : Domains} {x y : Variable}
    (h : cw.overlaps x y = none) : revise cw dom x y = (dom, false) := by
  simp [revise, h]

theorem revise_fst_x {cw : Cw} {dom : Domains} {x y : Variable} {ix iy : Nat}
    (h : cw.overlaps x y = some (ix, iy)) :
    (revise cw dom x y).1 x =
      (dom x).filter (fun w => (dom y).any (fun v => charAt w ix == charAt v iy)) := by
  simp only [revise, h]
  split
  · rename_i heq
    have hsub : ((dom x).filter
        (fun w => (dom y).any (fun v => charAt w ix == charAt v iy))).Sublist (dom x) :=
      List.filter_sublist _
    exact (hsub.eq_of_length (by simpa using heq)).symm
  · simp [Function.update]

theorem revise_fst_ne {cw : Cw} {dom : Domains} {x y z : Variable}
    (hz : z ≠ x) : (revise cw dom x y).1 z = dom z := by
  unfold revise
  match h : cw.overlaps x y with
  | none => rfl
  | some (ix, iy) =>
    simp only
    split
    · rfl
    · exact Function.update_noteq hz _ _

theorem revise_false_fst {cw : Cw} {dom : Domains} {x y : Variable}
    (h : (revise cw dom x y).2 = false) : (revise cw dom x y).1 = dom := by
  unfold revise at h ⊢
  match hov : cw.overlaps x y with
  | none => rfl
  | some (ix, iy) =>
    simp only [hov] at h ⊢
    split
    · rfl
    · rename_i hne
      rw [if_neg hne] at h
      simp at h

theorem revise_true_overlap {cw : Cw} {dom : Domains} {x y : Variable}
    (h : (revise cw dom x y).2 = true) : ∃ ix iy, cw.overlaps x y = some (ix, iy) := by
  unfold revise at h
  match hov : cw.overlaps x y with
  | none => rw [hov] at h; simp at h
  | some (ix, iy) => exact ⟨ix, iy, rfl⟩

theorem revise_mem_x {cw : Cw} {dom : Domains} {x y : Variable} {ix iy : Nat}
    (h : cw.overlaps x y = some (ix, iy)) (w : Word) :
    w ∈ (revise cw dom x y).1 x ↔
      w ∈ dom x ∧ ∃ v ∈ dom y, charAt w ix = charAt v iy := by
  rw [revise_fst_x h, List.mem_filter, List.any_eq_true]
  simp only [beq_iff_eq]

theorem revise_flag_iff {cw : Cw} {dom : Domains} {x y : Variable} {ix iy : Nat}
    (h : cw.overlaps x y = some (ix, iy)) :
    (revise cw dom x y).2 = true ↔
      ∃ w ∈ dom x, ∀ v ∈ dom y, charAt w ix ≠ charAt v iy := by
  have hsub : ((dom x).filter
      (fun w => (dom y).any (fun v => charAt w ix == charAt v iy))).Sublist (dom x) :=
    List.filter_sublist _
  simp only [revise, h]
  constructor
  · intro hflag
    split at hflag
    · simp at hflag
    · rename_i hne
      have hlt : ¬ ∀ w ∈ dom x, (dom y).any (fun v => charAt w ix == charAt v iy) = true := by
        intro hall
        exact hne (by simp [List.filter_eq_self.mpr hall])
      push_neg at hlt
      obtain ⟨w, hw, hnot⟩ := hlt
      refine ⟨w, hw, fun v hv heq => hnot ?_⟩
      exact List.any_eq_true.mpr ⟨v, hv, beq_iff_eq.mpr heq⟩
  · intro ⟨w, hw, hno⟩
    split
    · rename_i heq
      exfalso
      have hfil : ((dom x).filter
          (fun w => (dom y).any (fun v => charAt w ix == charAt v iy))) = dom x :=
        hsub.eq_of_length (by simpa using heq)
      have hall := List.filter_eq_self.mp hfil
      obtain ⟨v, hv, hvv⟩ := List.any_eq_true.mp (hall w hw)
      exact hno v hv (beq_iff_eq.mp hvv)
    · rfl

theorem mem_neighbors {cw : Cw} {a x : Variable} :
    a ∈ neighbors cw x ↔ a ∈ cw.vars ∧ (a ≠ x ∧ (cw.overlaps x a).isSome) := by
  rw [neighbors, List.mem_filter]
  simp

theorem revise_fst_subset {cw : Cw} {dom : Domains} {x y : Variable} (z : Variable) :
    ∀ w ∈ (revise cw dom x y).1 z, w ∈ dom z := by
  by_cases hz : z = x
  · rw [hz]
    cases hov : cw.overlaps x y with
    | none => rw [revise_of_no_overlap hov]; exact fun w hw => hw
    | some ij =>
      obtain ⟨ix, iy⟩ := ij
      exact fun w hw => ((revise_mem_x hov w).mp hw).1
  · rw [revise_fst_ne hz]
    exact fun w hw => hw

theorem revise_false_arcCons {cw : Cw} {dom : Domains} {x y : Variable}
    (h : (revise cw dom x y).2 = false) : arcCons cw dom x y := by
  intro ix iy hov w hw
  have hne : ¬ ∃ w ∈ dom x, ∀ v ∈ dom y, charAt w ix ≠ charAt v iy := by
    intro hex
    rw [← revise_flag_iff hov] at hex
    rw [h] at hex
    cases hex
  push_neg at hne
  exact hne w hw

theorem arcCons_mono {cw : Cw} {dom dom' : Domains} {a b : Variable}
    (h : arcCons cw dom a b) (hsub : ∀ w ∈ dom' a, w ∈ dom a)
    (hb : dom' b = dom b) : arcCons cw dom' a b := by
  intro ix iy hov w hw
  obtain ⟨v, hv, he⟩ := h ix iy hov w (hsub w hw)
  exact ⟨v, hb ▸ hv, he⟩

theorem arcCons_after_revise {cw : Cw} {dom : Domains} {x y : Variable}
    {ix iy : Nat} (hov : cw.overlaps x y = some (ix, iy)) (hyx : y ≠ x) :
    arcCons cw (revise cw dom x y).1 x y := by
  intro ix' iy' hov' w hw
  rw [hov] at hov'
  injection hov' with he
  injection he with he1 he2
  subst he1
  subst he2
  obtain ⟨-, v, hv, he⟩ := (revise_mem_x hov w).mp hw
  exact ⟨v, (revise_fst_ne hyx).symm ▸ hv, he⟩

theorem arcCons_yx_preserved {cw : Cw} {dom : Domains} {x y : Variable}
    {ix iy : Nat} (hov : cw.overlaps x y = some (ix, iy))
    (hyx : cw.overlaps y x = some (iy, ix)) (hne : y ≠ x)
    (h : arcCons cw dom y x) : arcCons cw (revise cw dom x y).1 y x := by
  intro i' j' hov2 v hv
  rw [hyx] at hov2
  injection hov2 with he
  injection he with he1 he2
  subst he1
  subst he2
  rw [revise_fst_ne hne] at hv
  obtain ⟨u, hu, hequ⟩ := h iy ix hyx v hv
  refine ⟨u, ?_, hequ⟩
  exact (revise_mem_x hov u).mpr ⟨hu, v, hv, hequ.symm⟩

theorem arcInv_init (cw : Cw) (hirr : ∀ v, cw.overlaps v v = none)
    (dom : Domains) : arcInv cw (get_arc_queue cw) dom := by
  intro x y hx hy hov
  left
  rw [get_arc_queue]
  have hne : y ≠ x := by
    intro he
    rw [he, hirr x] at hov
    cases hov
  exact List.mem_flatMap.mpr
    ⟨x, hx, List.mem_map.mpr ⟨y, mem_neighbors.mpr ⟨hy, hne, hov⟩, rfl⟩⟩

theorem get_arc_queue_mem {cw : Cw} :
    ∀ p ∈ get_arc_queue cw,
      p.1 ∈ cw.vars ∧ p.2 ∈ cw.vars ∧ (cw.overlaps p.1 p.2).isSome := by
  intro p hp
  rw [get_arc_queue] at hp
  obtain ⟨v, hv, hmem⟩ := List.mem_flatMap.mp hp
  obtain ⟨n, hn, hpn⟩ := List.mem_map.mp hmem
  obtain ⟨hn1, -, hn3⟩ := mem_neighbors.mp hn
  subst hpn
  exact ⟨hv, hn1, hn3⟩

theorem ac3Loop_sound (cw : Cw)
    (hsym : ∀ x y i j, cw.overlaps x y = some (i, j) → cw.overlaps y x = some (j, i))
    (hirr : ∀ v, cw.overlaps v v = none) :
    ∀ fuel arcs dom dom', arcInv cw arcs dom →
      ac3Loop cw fuel arcs dom = some (dom', true) →
      ∀ x ∈ cw.vars, ∀ y ∈ cw.vars, arcCons cw dom' x y := by
  intro fuel
  induction fuel with
  | zero =>
    intro arcs dom dom' _ h
    cases h
  | succ fuel ih =>
    intro arcs dom dom' hinv hrun
    match arcs with
    | [] =>
      simp only [ac3Loop] at hrun
      injection hrun with h1
      have hd : dom = dom' := congrArg Prod.fst h1
      subst hd
      intro x hx y hy
      by_cases hov : (cw.overlaps x y).isSome
      · rcases hinv x y hx hy hov with hmem | hc
        · cases hmem
        · exact hc
      · intro ix iy hcontr
        rw [hcontr] at hov
        simp at hov
    | (x, y) :: rest =>
      rw [ac3Loop] at hrun
      cases hflag : (revise cw dom x y).2 with
      | false =>
        rw [hflag] at hrun
        simp only [if_neg (Bool.false_ne_true)] at hrun
        refine ih rest dom dom' ?_ hrun
        intro a b ha hb hab
        rcases hinv a b ha hb hab with hmem | hc
        · rcases List.mem_cons.mp hmem with heq | hmem2
          · right
            injection heq with he1 he2
            subst he1
            subst he2
            exact revise_false_arcCons hflag
          · left
            exact hmem2
        · right
          exact hc
      | true =>
        rw [hflag] at hrun
        simp only [if_pos rfl] at hrun
        cases hlen : (((revise cw dom x y).1 x).length == 0) with
        | true =>
          rw [hlen] at hrun
          simp only [if_pos rfl] at hrun
          injection hrun with h1
          have : false = true := congrArg Prod.snd h1
          cases this
        | false =>
          rw [hlen] at hrun
          simp only [if_neg (Bool.false_ne_true)] at hrun
          refine ih _ _ dom' ?_ hrun
          obtain ⟨ix, iy, hov⟩ := revise_true_overlap hflag
          have hyne : y ≠ x := by
            intro he
            rw [he, hirr x] at hov
            cases hov
          intro a b ha hb hab
          rcases hinv a b ha hb hab with hmem | hc
          · rcases List.mem_cons.mp hmem with heq | hmem2
            · right
              injection heq with he1 he2
              subst he1
              subst he2
              exact arcCons_after_revise hov hyne
            · left
              exact List.mem_append_left _ hmem2
          · by_cases hbx : b = x
            · by_cases hax : a = x
              · rw [hbx, hax, hirr x] at hab
                simp at hab
              · by_cases hay : a = y
                · rw [hbx, hay] at hc ⊢
                  right
                  exact arcCons_yx_preserved hov (hsym x y ix iy hov) hyne hc
                · left
                  rw [hbx]
                  apply List.mem_append_right
                  refine List.mem_map.mpr ⟨a, List.mem_filter.mpr ⟨?_, ?_⟩, rfl⟩
                  · rw [hbx] at hab
                    obtain ⟨ij', hov2⟩ := Option.isSome_iff_exists.mp hab
                    obtain ⟨i2, j2⟩ := ij'
                    exact mem_neighbors.mpr ⟨ha, hax, by rw [hsym a x i2 j2 hov2]; rfl⟩
                  · simp [hay]
            · right
              exact arcCons_mono hc (revise_fst_subset a) (revise_fst_ne hbx)

theorem cwB_symm : ∀ x y i j, cwB.overlaps x y = some (i, j) →
    cwB.overlaps y x = some (j, i) := by
  intro x y i j h
  by_cases h1 : x = vA ∧ y = vD
  · obtain ⟨hx1, hy1⟩ := h1
    subst hx1
    subst hy1
    have he : (some (0, 0) : Option (Nat × Nat)) = some (i, j) := h
    injection he with he2
    injection he2 with hi hj
    subst hi
    subst hj
    decide
  · by_cases h2 : x = vD ∧ y = vA
    · obtain ⟨hx1, hy1⟩ := h2
      subst hx1
      subst hy1
      have he : (some (0, 0) : Option (Nat × Nat)) = some (i, j) := h
      injection he with he2
      injection he2 with hi hj
      subst hi
      subst hj
      decide
    · exfalso
      have he : cwB.overlaps x y = none := by
        show (if x = vA ∧ y = vD then some (0, 0)
          else if x = vD ∧ y = vA then some (0, 0) else none) = none
        rw [if_neg h1, if_neg h2]
      rw [he] at h
      cases h

theorem arcCons_revise_false {cw : Cw} {dom : Domains} {x y : Variable}
    (h : arcCons cw dom x y) : (revise cw dom x y).2 = false := by
  cases hov : cw.overlaps x y with
  | none => rw [revise_of_no_overlap hov]
  | some ij =>
    obtain ⟨ix, iy⟩ := ij
    cases hb : (revise cw dom x y).2
    · rfl
    · exfalso
      obtain ⟨w, hw, hno⟩ := (revise_flag_iff hov).mp hb
      obtain ⟨v, hv, he⟩ := h ix iy hov w hw
      exact hno v hv he

theorem ac3Loop_noop (cw : Cw) : ∀ arcs fuel dom,
    (∀ p ∈ arcs, (revise cw dom p.1 p.2).2 = false) → arcs.length < fuel →
    ac3Loop cw fuel arcs dom = some (dom, true) := by
  intro arcs
  induction arcs with
  | nil =>
    intro fuel dom _ hf
    match fuel, hf with
    | fuel + 1, _ => rfl
  | cons p rest ih =>
    intro fuel dom hall hf
    obtain ⟨x, y⟩ := p
    match fuel, hf with
    | fuel + 1, hf =>
      rw [ac3Loop]
      have hflag : (revise cw dom x y).2 = false := hall (x, y) (List.mem_cons_self _ _)
      rw [hflag]
      simp only [if_neg Bool.false_ne_true]
      refine ih fuel dom (fun q hq => hall q (List.mem_cons_of_mem _ hq)) ?_
      exact Nat.lt_of_succ_lt_succ hf

theorem ac3Loop_false_empty (cw : Cw) : ∀ fuel arcs dom dom',
    (∀ p ∈ arcs, p.1 ∈ cw.vars) →
    ac3Loop cw fuel arcs dom = some (dom', false) →
    ∃ v ∈ cw.vars, dom' v = [] := by
  intro fuel
  induction fuel with
  | zero =>
    intro arcs dom dom' _ h
    cases h
  | succ fuel ih =>
    intro arcs dom dom' hfst hrun
    match arcs with
    | [] =>
      simp only [ac3Loop] at hrun
      injection hrun with h1
      have h2 : true = false := congrArg Prod.snd h1
      cases h2
    | (x, y) :: rest =>
      rw [ac3Loop] at hrun
      cases hflag : (revise cw dom x y).2 with
      | false =>
        rw [hflag] at hrun
        simp only [if_neg Bool.false_ne_true] at hrun
        exact ih rest dom dom' (fun p hp => hfst p (List.mem_cons_of_mem _ hp)) hrun
      | true =>
        rw [hflag] at hrun
        simp only [if_pos rfl] at hrun
        cases hlen : (((revise cw dom x y).1 x).length == 0) with
        | true =>
          rw [hlen] at hrun
          simp only [if_pos rfl] at hrun
          injection hrun with h1
          have hd : (revise cw dom x y).1 = dom' := congrArg Prod.fst h1
          refine ⟨x, hfst (x, y) (List.mem_cons_self _ _), ?_⟩
          rw [← hd]
          exact List.length_eq_zero.mp (by simpa using hlen)
        | false =>
          rw [hlen] at hrun
          simp only [if_neg Bool.false_ne_true] at hrun
          refine ih _ _ dom' ?_ hrun
          intro p hp
          rcases List.mem_append.mp hp with hp2 | hp2
          · exact hfst p (List.mem_cons_of_mem _ hp2)
          · obtain ⟨z, hz, hpz⟩ := List.mem_map.mp hp2
            subst hpz
            exact (mem_neighbors.mp (List.mem_filter.mp hz).1).1

theorem selectMin_foldl_mem (cw : Cw) (dom : Domains) :
    ∀ (l : List Variable) (b : Variable),
      (l.foldl (fun best u =>
        if (dom u).length < (dom best).length ∨
           ((dom u).length = (dom best).length ∧
            (neighbors cw best).length < (neighbors cw u).length)
        then u else best) b) ∈ b :: l := by
  intro l
  induction l with
  | nil => intro b; exact List.mem_cons_self _ _
  | cons u rest ih =>
    intro b
    rw [List.foldl_cons]
    split
    · rcases List.mem_cons.mp (ih u) with h2 | h2
      · rw [h2]
        exact List.mem_cons_of_mem _ (List.mem_cons_self _ _)
      · exact List.mem_cons_of_mem _ (List.mem_cons_of_mem _ h2)
    · rcases List.mem_cons.mp (ih b) with h2 | h2
      · rw [h2]
        exact List.mem_cons_self _ _
      · exact List.mem_cons_of_mem _ (List.mem_cons_of_mem _ h2)

theorem selectMin_mem {cw : Cw} {dom : Domains} {l : List Variable}
    {u : Variable} (h : selectMin cw dom l = some u) : u ∈ l := by
  match l with
  | [] => cases h
  | v :: rest =>
    injection h with h1
    rw [← h1]
    exact selectMin_foldl_mem cw dom rest v

theorem select_unassigned_mem {cw : Cw} {dom : Domains} {a : Assignment}
    {var : Variable} (h : select_unassigned_variable cw dom a = some var) :
    var ∈ cw.vars ∧ lookupA a var = none := by
  have hm : var ∈ cw.vars.filter (fun v => (lookupA a v).isNone) :=
    selectMin_mem h
  have h2 := List.mem_filter.mp hm
  exact ⟨h2.1, by simpa [Option.isNone_iff_eq_none] using h2.2⟩

theorem tryWords_no_result (cw : Cw) (recur : Assignment → Option (Option Assignment))
    (var : Variable) (a : Assignment)
    (hrec : ∀ w, recur (a ++ [(var, w)]) = none ∨ recur (a ++ [(var, w)]) = some none) :
    ∀ ws, tryWords cw recur var a ws = none ∨ tryWords cw recur var a ws = some none := by
  intro ws
  induction ws with
  | nil => right; rfl
  | cons w rest ih =>
    rw [tryWords]
    by_cases hc : consistent cw (a ++ [(var, w)]) = true
    · rw [if_pos hc]
      rcases hrec w with hr | hr
      · rw [hr]
        left
        rfl
      · rw [hr]
        exact ih
    · rw [if_neg hc]
      exact ih

theorem backtrack_no_result (cw : Cw) (v : Variable)
    (hv : v ∈ cw.vars) (dom : Domains) (hdom : dom v = []) :
    ∀ fuel a, (a.map Prod.fst).Nodup → (∀ p ∈ a, p.1 ∈ cw.vars) →
      lookupA a v = none →
      backtrack cw dom fuel a = none ∨ backtrack cw dom fuel a = some none := by
  intro fuel
  induction fuel with
  | zero =>
    intro a _ _ _
    left
    rfl
  | succ fuel ih =>
    intro a hknd hksub hvnone
    rw [backtrack]
    by_cases hcomp : (a.length == cw.vars.length) = true
    · exfalso
      have hlen : a.length = cw.vars.length := by simpa using hcomp
      have hsubl : List.Subperm (v :: a.map Prod.fst) cw.vars := by
        apply List.subperm_of_subset
        · exact List.nodup_cons.mpr ⟨lookupA_eq_none.mp hvnone, hknd⟩
        · intro u hu
          rcases List.mem_cons.mp hu with h | h
          · rw [h]
            exact hv
          · obtain ⟨p, hp, hpe⟩ := List.mem_map.mp h
            rw [← hpe]
            exact hksub p hp
      have hle := hsubl.length_le
      simp only [List.length_cons, List.length_map] at hle
      omega
    · rw [if_neg hcomp]
      cases hsel : select_unassigned_variable cw dom a with
      | none =>
        left
        rfl
      | some var =>
        obtain ⟨hvar1, hvar2⟩ := select_unassigned_mem hsel
        show tryWords cw (backtrack cw dom fuel) var a (dom var) = none ∨
          tryWords cw (backtrack cw dom fuel) var a (dom var) = some none
        by_cases hvv : var = v
        · rw [hvv, hdom]
          right
          rfl
        · apply tryWords_no_result
          intro w
          apply ih
          · rw [List.map_append, List.map_cons]
            refine (List.nodup_append).mpr ⟨hknd, by simp, ?_⟩
            intro u hu hu2
            simp only [List.map_nil, List.mem_cons, List.not_mem_nil, or_false] at hu2
            rw [hu2] at hu
            exact (lookupA_eq_none.mp hvar2) hu
          · intro p hp
            rcases List.mem_append.mp hp with h | h
            · exact hksub p h
            · simp only [List.mem_singleton] at h
              rw [h]
              exact hvar1
          · rw [lookupA_append, hvnone]
            show lookupA [(var, w)] v = none
            simp [lookupA, hvv]

theorem extend_keys_nodup {a : Assignment} {var : Variable} {w : Word}
    (hknd : (a.map Prod.fst).Nodup) (hnone : lookupA a var = none) :
    ((a ++ [(var, w)]).map Prod.fst).Nodup := by
  rw [List.map_append, List.map_cons]
  refine (List.nodup_append).mpr ⟨hknd, by simp, ?_⟩
  intro u hu hu2
  simp only [List.map_nil, List.mem_cons, List.not_mem_nil, or_false] at hu2
  rw [hu2] at hu
  exact (lookupA_eq_none.mp hnone) hu

theorem extend_keys_sub {cw : Cw} {a : Assignment} {var : Variable} {w : Word}
    (hksub : ∀ p ∈ a, p.1 ∈ cw.vars) (hvar : var ∈ cw.vars) :
    ∀ p ∈ a ++ [(var, w)], p.1 ∈ cw.vars := by
  intro p hp
  rcases List.mem_append.mp hp with h | h
  · exact hksub p h
  · simp only [List.mem_singleton] at h
    rw [h]
    exact hvar

theorem tryWords_sound (cw : Cw) (recur : Assignment → Option (Option Assignment))
    (var : Variable) (a : Assignment) (r : Assignment)
    (IH : ∀ a' r', (a'.map Prod.fst).Nodup → (∀ p ∈ a', p.1 ∈ cw.vars) →
      consistent cw a' = true → recur a' = some (some r') →
      consistent cw r' = true ∧ (r'.map Prod.fst).Perm cw.vars)
    (hknd : (a.map Prod.fst).Nodup) (hksub : ∀ p ∈ a, p.1 ∈ cw.vars)
    (hvar : var ∈ cw.vars) (hnone : lookupA a var = none) :
    ∀ ws, tryWords cw recur var a ws = some (some r) →
      consistent cw r = true ∧ (r.map Prod.fst).Perm cw.vars := by
  intro ws
  induction ws with
  | nil =>
    intro h
    simp only [tryWords] at h
    injection h with h1
    cases h1
  | cons w rest ih =>
    intro h
    rw [tryWords] at h
    by_cases hc : consistent cw (a ++ [(var, w)]) = true
    · rw [if_pos hc] at h
      cases hr : recur (a ++ [(var, w)]) with
      | none =>
        rw [hr] at h
        cases h
      | some o =>
        cases o with
        | none =>
          rw [hr] at h
          exact ih h
        | some r' =>
          rw [hr] at h
          injection h with h1
          injection h1 with h2
          rw [← h2]
          exact IH (a ++ [(var, w)]) r' (extend_keys_nodup hknd hnone)
            (extend_keys_sub hksub hvar) hc hr
    · rw [if_neg hc] at h
      exact ih h

theorem backtrack_sound (cw : Cw) (dom : Domains) :
    ∀ fuel a r, (a.map Prod.fst).Nodup → (∀ p ∈ a, p.1 ∈ cw.vars) →
      consistent cw a = true →
      backtrack cw dom fuel a = some (some r) →
      consistent cw r = true ∧ (r.map Prod.fst).Perm cw.vars := by
  intro fuel
  induction fuel with
  | zero =>
    intro a r _ _ _ h
    cases h
  | succ fuel ih =>
    intro a r hknd hksub hcons h
    rw [backtrack] at h
    by_cases hcomp : (a.length == cw.vars.length) = true
    · rw [if_pos hcomp] at h
      injection h with h1
      injection h1 with h2
      rw [← h2]
      refine ⟨hcons, ?_⟩
      have hlen : a.length = cw.vars.length := by simpa using hcomp
      have hsp : List.Subperm (a.map Prod.fst) cw.vars :=
        List.subperm_of_subset hknd (fun u hu => by
          obtain ⟨p, hp, hpe⟩ := List.mem_map.mp hu
          rw [← hpe]
          exact hksub p hp)
      refine hsp.perm_of_length_le ?_
      rw [List.length_map]
      omega
    · rw [if_neg hcomp] at h
      cases hsel : select_unassigned_variable cw dom a with
      | none =>
        rw [hsel] at h
        cases h
      | some var =>
        rw [hsel] at h
        obtain ⟨hvar1, hvar2⟩ := select_unassigned_mem hsel
        exact tryWords_sound cw (backtrack cw dom fuel) var a r
          (fun a' r' h1 h2 h3 h4 => ih a' r' h1 h2 h3 h4)
          hknd hksub hvar1 hvar2 (dom var) h

theorem tryWordsS_frame (cw : Cw) (var : Variable) (a : Assignment)
    (recurS : Assignment → Domains → Option (Domains × Option Assignment))
    (recur : Assignment → Option (Option Assignment)) (dom : Domains)
    (hrec : ∀ a', recurS a' dom = (recur a').map (fun r => (dom, r))) :
    ∀ ws, tryWordsS cw recurS var a ws dom =
      (tryWords cw recur var a ws).map (fun r => (dom, r)) := by
  intro ws
  induction ws with
  | nil => rfl
  | cons w rest ih =>
    rw [tryWordsS, tryWords]
    by_cases hc : consistent cw (a ++ [(var, w)]) = true
    · rw [if_pos hc, if_pos hc, hrec]
      cases hr : recur (a ++ [(var, w)]) with
      | none => rfl
      | some o =>
        cases o with
        | none =>
          simp only [Option.map_some']
          exact ih
        | some r => rfl
    · rw [if_neg hc, if_neg hc]
      exact ih

theorem elimFold_spec (cw : Cw) (dom : Domains) (var : Variable) (w : Word) :
    ∀ (ns : List Variable) (elim : List Word), elim.Nodup →
      ((ns.foldl (elimStep cw dom var w) elim).Nodup ∧
        (ns.foldl (elimStep cw dom var w) elim).toFinset =
          elim.toFinset ∪ (ns.flatMap (elimList cw dom var w)).toFinset) := by
  intro ns
  induction ns with
  | nil =>
    intro elim h
    exact ⟨h, by simp⟩
  | cons n rest ih =>
    intro elim h
    rw [List.foldl_cons]
    have hstep : (elimStep cw dom var w elim n).Nodup ∧
        (elimStep cw dom var w elim n).toFinset =
          elim.toFinset ∪ (elimList cw dom var w n).toFinset := by
      rw [elimStep, elimList]
      cases hov : cw.overlaps var n with
      | none => simp [h]
      | some ij =>
        obtain ⟨i, j⟩ := ij
        constructor
        · refine List.Nodup.append h
            ((((dom n).nodup_dedup).filter _).filter _) ?_
          intro u hu hu2
          have h3 := (List.mem_filter.mp (List.mem_filter.mp hu2).1).2
          rw [Bool.not_eq_true', decide_eq_false_iff_not] at h3
          exact h3 hu
        · ext u
          simp only [List.toFinset_append, Finset.mem_union, List.mem_toFinset,
            List.mem_filter, List.mem_dedup, Bool.not_eq_true',
            decide_eq_false_iff_not]
          tauto
    obtain ⟨h1, h2⟩ := ih (elimStep cw dom var w elim n) hstep.1
    refine ⟨h1, ?_⟩
    rw [h2, hstep.2, List.flatMap_cons, List.toFinset_append, Finset.union_assoc]

/-! ## Claim theorems -/

/-- C6: if `x` and `y` have no overlap, `revise(x, y)` removes nothing and
returns `False`; if they overlap at `(ix, iy)`, it keeps in `x`'s domain
exactly the words with an agreeing word in `y`'s current domain, touches no
other domain, and returns `True` iff at least one word was removed. -/
theorem revise_characterization (cw : Cw) (dom : Domains) (x y : Variable) :
    (cw.overlaps x y = none → revise cw dom x y = (dom, false)) ∧
    (∀ ix iy, cw.overlaps x y = some (ix, iy) →
      (∀ w, w ∈ (revise cw dom x y).1 x ↔
        w ∈ dom x ∧ ∃ v ∈ dom y, charAt w ix = charAt v iy) ∧
      (∀ z, z ≠ x → (revise cw dom x y).1 z = dom z) ∧
      ((revise cw dom x y).2 = true ↔
        ∃ w ∈ dom x, w ∉ (revise cw dom x y).1 x)) := by
  refine ⟨revise_of_no_overlap, fun ix iy h => ⟨revise_mem_x h, fun z hz => revise_fst_ne hz, ?_⟩⟩
  rw [revise_flag_iff h]
  constructor
  · intro ⟨w, hw, hno⟩
    refine ⟨w, hw, fun hmem => ?_⟩
    obtain ⟨-, v, hv, heq⟩ := (revise_mem_x h w).mp hmem
    exact hno v hv heq
  · intro ⟨w, hw, hout⟩
    refine ⟨w, hw, fun v hv heq => hout ?_⟩
    exact (revise_mem_x h w).mpr ⟨hw, v, hv, heq⟩

/-- C6 witness: `revise_characterization` applied to the concrete crossing
slots of `cwD` with the store `domD`. -/
theorem revise_characterization_witness :
    (cwD.overlaps vA vD = some (0, 0)) ∧
    ((∀ w, w ∈ (revise cwD domD vA vD).1 vA ↔
        w ∈ domD vA ∧ ∃ v ∈ domD vD, charAt w 0 = charAt v 0) ∧
      (∀ z, z ≠ vA → (revise cwD domD vA vD).1 z = domD z) ∧
      ((revise cwD domD vA vD).2 = true ↔
        ∃ w ∈ domD vA, w ∉ (revise cwD domD vA vD).1 vA)) :=
  ⟨rfl, (revise_characterization cwD domD vA vD).2 0 0 rfl⟩

/-- C7: for a duplicate-free assignment of crossword variables,
`consistent(assignment)` holds iff the assigned words are pairwise
distinct, every word's length equals its variable's length, and every
assigned overlapping pair agrees at the shared positions. -/
theorem consistent_iff (cw : Cw) (a : Assignment)
    (hk : (a.map Prod.fst).Nodup) (hsub : ∀ p ∈ a, p.1 ∈ cw.vars)
    (hirr : ∀ v, cw.overlaps v v = none) :
    consistent cw a = true ↔
      ((a.map Prod.snd).Nodup ∧ (∀ p ∈ a, p.1.length = p.2.length) ∧
        ∀ p ∈ a, ∀ q ∈ a, ∀ i j, cw.overlaps p.1 q.1 = some (i, j) →
          charAt p.2 i = charAt q.2 j) := by
  unfold consistent
  rw [Bool.and_eq_true, decide_eq_true_eq, List.all_eq_true]
  constructor
  · intro ⟨hnd, hall⟩
    refine ⟨hnd, ?_, ?_⟩
    · intro p hp
      have h1 := hall p hp
      rw [Bool.and_eq_true] at h1
      exact beq_iff_eq.mp h1.1
    · intro p hp q hq i j hov
      have h1 := hall p hp
      rw [Bool.and_eq_true, List.all_eq_true] at h1
      have hne : q.1 ≠ p.1 := by
        intro he
        rw [he, hirr p.1] at hov
        cases hov
      have hq1 : q.1 ∈ neighbors cw p.1 := by
        rw [neighbors, List.mem_filter]
        exact ⟨hsub q hq, by simp [hne, hov]⟩
      have h2 := h1.2 q.1 hq1
      have hl : lookupA a q.1 = some q.2 := by
        refine lookupA_of_mem hk ?_
        rw [Prod.mk.eta]
        exact hq
      rw [hl, hov] at h2
      exact beq_iff_eq.mp h2
  · intro ⟨hnd, hlen, hagree⟩
    refine ⟨hnd, fun p hp => ?_⟩
    rw [Bool.and_eq_true, List.all_eq_true]
    refine ⟨beq_iff_eq.mpr (hlen p hp), fun n hn => ?_⟩
    cases hlook : lookupA a n with
    | none => rfl
    | some wn =>
      cases hov2 : cw.overlaps p.1 n with
      | none => rfl
      | some ij =>
        obtain ⟨i, j⟩ := ij
        exact beq_iff_eq.mpr (hagree p hp (n, wn) (lookupA_mem hlook) i j hov2)

/-- C7 witness: `consistent_iff` at a concrete two-entry assignment for the
crossing slots of `cwB`, which `consistent` accepts. -/
theorem consistent_iff_witness :
    ((([(vA, ['a', 'a']), (vD, ['a', 'b'])] : Assignment).map Prod.fst).Nodup ∧
      cwB.overlaps vA vA = none) ∧
    (consistent cwB [(vA, ['a', 'a']), (vD, ['a', 'b'])] = true ↔
      ((([(vA, ['a', 'a']), (vD, ['a', 'b'])] : Assignment).map Prod.snd).Nodup ∧
        (∀ p ∈ ([(vA, ['a', 'a']), (vD, ['a', 'b'])] : Assignment),
          p.1.length = p.2.length) ∧
        ∀ p ∈ ([(vA, ['a', 'a']), (vD, ['a', 'b'])] : Assignment),
          ∀ q ∈ ([(vA, ['a', 'a']), (vD, ['a', 'b'])] : Assignment),
          ∀ i j, cwB.overlaps p.1 q.1 = some (i, j) →
            charAt p.2 i = charAt q.2 j)) :=
  ⟨⟨by decide, cwB_irrefl vA⟩,
    consistent_iff cwB [(vA, ['a', 'a']), (vD, ['a', 'b'])] (by decide)
      (by decide) cwB_irrefl⟩

/-- C2: when `ac3` run with the default worklist returns `True`, every pair
of overlapping crossword variables is arc consistent: each word left in
`x`'s domain agrees with some word of `y`'s domain at the overlap. -/
theorem ac3_sound (cw : Cw) (fuel : Nat) (dom dom' : Domains)
    (hsym : ∀ x y i j, cw.overlaps x y = some (i, j) → cw.overlaps y x = some (j, i))
    (hirr : ∀ v, cw.overlaps v v = none)
    (h : ac3 cw fuel none dom = some (dom', true)) :
    ∀ x ∈ cw.vars, ∀ y ∈ cw.vars, ∀ ix iy, cw.overlaps x y = some (ix, iy) →
      ∀ w ∈ dom' x, ∃ v ∈ dom' y, charAt w ix = charAt v iy := by
  intro x hx y hy ix iy hov w hw
  exact ac3Loop_sound cw hsym hirr fuel (get_arc_queue cw) dom dom'
    (arcInv_init cw hirr dom) h x hx y hy ix iy hov w hw

/-- C2 witness: `ac3_sound` at `cwB`, where AC-3 succeeds removing
nothing; every word of `vA`'s domain has first-character support in
`vD`'s domain. -/
theorem ac3_sound_witness :
    (ac3 cwB 5 none (initDomains cwB) = some (initDomains cwB, true)) ∧
    (∀ w ∈ initDomains cwB vA, ∃ v ∈ initDomains cwB vD,
      charAt w 0 = charAt v 0) :=
  ⟨rfl, ac3_sound cwB 5 (initDomains cwB) (initDomains cwB) cwB_symm cwB_irrefl
    rfl vA (by decide) vD (by decide) 0 0 rfl⟩

/-- C1: any assignment `solve` returns satisfies `consistent`, covers the
crossword variables exactly once each, and reuses no word across two
variables. -/
theorem solve_sound (cw : Cw) (fuel : Nat) (a : Assignment)
    (h : solve cw fuel = some (some a)) :
    consistent cw a = true ∧ (a.map Prod.fst).Perm cw.vars ∧
      (a.map Prod.snd).Nodup := by
  cases hac : ac3 cw fuel none (enforce_node_consistency (initDomains cw)) with
  | none =>
    have hs : solve cw fuel = none := by
      show (match ac3 cw fuel none (enforce_node_consistency (initDomains cw)) with
        | none => none
        | some (d, _) => backtrack cw d fuel []) = none
      rw [hac]
    rw [hs] at h
    cases h
  | some p =>
    obtain ⟨d₂, b⟩ := p
    have hs : solve cw fuel = backtrack cw d₂ fuel [] := by
      show (match ac3 cw fuel none (enforce_node_consistency (initDomains cw)) with
        | none => none
        | some (d, _) => backtrack cw d fuel []) = backtrack cw d₂ fuel []
      rw [hac]
    rw [hs] at h
    have hb := backtrack_sound cw d₂ fuel [] a (by simp) (by simp)
      (by simp [consistent]) h
    refine ⟨hb.1, hb.2, ?_⟩
    have hc := hb.1
    rw [consistent, Bool.and_eq_true, decide_eq_true_eq] at hc
    exact hc.1

/-- C1 witness: `solve_sound` at `cwA`, where `solve` returns the complete
assignment `{vA ↦ "ab"}`. -/
theorem solve_sound_witness :
    (solve cwA 3 = some (some [(vA, ['a', 'b'])])) ∧
    (consistent cwA [(vA, ['a', 'b'])] = true ∧
      (([(vA, ['a', 'b'])] : Assignment).map Prod.fst).Perm cwA.vars ∧
      (([(vA, ['a', 'b'])] : Assignment).map Prod.snd).Nodup) :=
  ⟨rfl, solve_sound cwA 3 [(vA, ['a', 'b'])] rfl⟩

/-- C3: a revision that empties a variable's domain makes `ac3` return
`False` at that very arc, whatever worklist remains; and when the default
`ac3` run inside `solve` reports `False`, `solve` produces no assignment. -/
theorem ac3_failure_detection (cw : Cw) (fuel : Nat)
    (hfalse : (ac3 cw fuel none
      (enforce_node_consistency (initDomains cw))).map Prod.snd = some false) :
    (∀ dom₀ x y rest d f, revise cw dom₀ x y = (d, true) → d x = [] →
      ac3Loop cw (f + 1) ((x, y) :: rest) dom₀ = some (d, false)) ∧
    (solve cw fuel = none ∨ solve cw fuel = some none) := by
  constructor
  · intro dom₀ x y rest d f hrev hempty
    rw [ac3Loop, hrev]
    simp [hempty]
  · obtain ⟨p, hp, hp2⟩ := Option.map_eq_some'.mp hfalse
    obtain ⟨d₂, b⟩ := p
    simp only at hp2
    subst hp2
    obtain ⟨v, hv, hve⟩ := ac3Loop_false_empty cw fuel (get_arc_queue cw)
      (enforce_node_consistency (initDomains cw)) d₂
      (fun q hq => (get_arc_queue_mem q hq).1) hp
    have hbt := backtrack_no_result cw v hv d₂ hve fuel [] (by simp) (by simp) rfl
    have hsolve : solve cw fuel = backtrack cw d₂ fuel [] := by
      show (match ac3 cw fuel none (enforce_node_consistency (initDomains cw)) with
        | none => none
        | some (d, _) => backtrack cw d fuel []) = backtrack cw d₂ fuel []
      rw [hp]
    rw [hsolve]
    exact hbt

/-- C3 witness: `ac3_failure_detection` at `cwC`, whose length-3 slot has an
empty domain after node consistency, so AC-3 fails and `solve` returns
nothing. -/
theorem ac3_failure_detection_witness :
    ((ac3 cwC 3 none
        (enforce_node_consistency (initDomains cwC))).map Prod.snd = some false) ∧
    (solve cwC 3 = none ∨ solve cwC 3 = some none) :=
  ⟨rfl, (ac3_failure_detection cwC 3 rfl).2⟩

/-- C8: `enforce_node_consistency` is idempotent, and after `ac3` with the
default worklist returns `True`, a second default-worklist run (with enough
fuel for its worklist) removes nothing: it returns the same domains and
`True`. -/
theorem propagation_fixed_point (cw : Cw) (dom dom' : Domains) (fuel fuel₂ : Nat)
    (hsym : ∀ x y i j, cw.overlaps x y = some (i, j) → cw.overlaps y x = some (j, i))
    (hirr : ∀ v, cw.overlaps v v = none)
    (h : ac3 cw fuel none dom = some (dom', true))
    (hf : (get_arc_queue cw).length < fuel₂) :
    (∀ d : Domains, ∀ v,
      enforce_node_consistency (enforce_node_consistency d) v
        = enforce_node_consistency d v) ∧
    ac3 cw fuel₂ none dom' = some (dom', true) := by
  constructor
  · intro d v
    simp [enforce_node_consistency, List.filter_filter]
  · have hcons := ac3Loop_sound cw hsym hirr fuel (get_arc_queue cw) dom dom'
      (arcInv_init cw hirr dom) h
    show ac3Loop cw fuel₂ (get_arc_queue cw) dom' = some (dom', true)
    refine ac3Loop_noop cw (get_arc_queue cw) fuel₂ dom' ?_ hf
    intro p hp
    obtain ⟨h1, h2, -⟩ := get_arc_queue_mem p hp
    exact arcCons_revise_false (hcons p.1 h1 p.2 h2)

/-- C8 witness: `propagation_fixed_point` at `cwB`: rerunning `ac3` on the
store returned by a successful run changes nothing. -/
theorem propagation_fixed_point_witness :
    ((ac3 cwB 5 none (initDomains cwB) = some (initDomains cwB, true)) ∧
      (get_arc_queue cwB).length < 3) ∧
    ((∀ d : Domains, ∀ v,
        enforce_node_consistency (enforce_node_consistency d) v
          = enforce_node_consistency d v) ∧
      ac3 cwB 3 none (initDomains cwB) = some (initDomains cwB, true)) :=
  ⟨⟨rfl, by decide⟩,
    propagation_fixed_point cwB (initDomains cwB) (initDomains cwB) 5 3
      cwB_symm cwB_irrefl rfl (by decide)⟩

/-- C4 counterexample: at `cwD`/`domD`, `backtrack` returns the assignment
built from `vA`'s first stored word `"ba"` (score 2) although
`order_domain_values` puts `"ab"` (score 1) first; the spec-faithful
`backtrackOrdered` returns a different assignment, so `backtrack` does not
try candidates in the heuristic order. -/
theorem backtrack_ignores_value_ordering :
    backtrack cwD domD 5 [] =
      some (some [(vA, ['b', 'a']), (vD, ['b', 'b'])]) ∧
    backtrackOrdered cwD domD 5 [] =
      some (some [(vA, ['a', 'b']), (vD, ['a', 'a'])]) ∧
    backtrack cwD domD 5 [] ≠ backtrackOrdered cwD domD 5 [] := by
  refine ⟨rfl, rfl, ?_⟩
  decide

/-- C4 amended: after selecting a variable, `backtrack` tries its words in
the Domain Store's stored order, never consulting `order_domain_values`;
the first stored word whose consistent extension recursively succeeds
decides the result. -/
theorem backtrack_first_stored_word (cw : Cw) (dom : Domains) (fuel : Nat)
    (a : Assignment) (var : Variable) (w : Word) (ws : List Word)
    (r : Assignment)
    (hlen : (a.length == cw.vars.length) = false)
    (hsel : select_unassigned_variable cw dom a = some var)
    (hdom : dom var = w :: ws)
    (hcons : consistent cw (a ++ [(var, w)]) = true)
    (hrec : backtrack cw dom fuel (a ++ [(var, w)]) = some (some r)) :
    backtrack cw dom (fuel + 1) a = some (some r) := by
  rw [backtrack, hlen]
  simp only [Bool.false_eq_true, if_false]
  rw [hsel]
  show tryWords cw (backtrack cw dom fuel) var a (dom var) = some (some r)
  rw [hdom]
  simp only [tryWords]
  rw [if_pos hcons, hrec]

/-- C4 amended-claim witness: `backtrack_first_stored_word` at `cwD`/`domD`
with the empty assignment: the first stored word `"ba"` succeeds and decides
the result. -/
theorem backtrack_first_stored_word_witness :
    ((([] : Assignment).length == cwD.vars.length) = false ∧
      select_unassigned_variable cwD domD [] = some vA ∧
      domD vA = ['b', 'a'] :: [['a', 'b']] ∧
      consistent cwD ([] ++ [(vA, ['b', 'a'])]) = true ∧
      backtrack cwD domD 4 ([] ++ [(vA, ['b', 'a'])]) =
        some (some [(vA, ['b', 'a']), (vD, ['b', 'b'])])) ∧
    backtrack cwD domD 5 [] =
      some (some [(vA, ['b', 'a']), (vD, ['b', 'b'])]) :=
  ⟨⟨rfl, rfl, rfl, rfl, rfl⟩,
    backtrack_first_stored_word cwD domD 4 [] vA ['b', 'a'] [['a', 'b']]
      [(vA, ['b', 'a']), (vD, ['b', 'b'])] rfl rfl rfl rfl rfl⟩

/-- C5 counterexample: at `cwE`/`domE` with candidate `"aa"`, the word
`"bb"` is eliminated at both unassigned neighbors; `eliminate_values`
counts it once (score 1), while the claim's per-neighbor sum gives 2. -/
theorem eliminate_values_not_per_neighbor :
    eliminate_values cwE domE vA ['a', 'a'] [] = 1 ∧
    eliminateValuesSpec cwE domE vA ['a', 'a'] [] = 2 ∧
    eliminate_values cwE domE vA ['a', 'a'] [] ≠
      eliminateValuesSpec cwE domE vA ['a', 'a'] [] := by
  refine ⟨rfl, rfl, ?_⟩
  decide

/-- C5 amended: the score by which `order_domain_values` sorts equals the
number of distinct words eliminated across `var`'s unassigned neighbors —
the cardinality of the union of the per-neighbor eliminated sets — so a
word eliminated at two different neighbors contributes once, not twice. -/
theorem eliminate_values_counts_union (cw : Cw) (dom : Domains)
    (var : Variable) (w : Word) (a : Assignment) :
    eliminate_values cw dom var w a =
      ((unassignedNeighbors cw var a).flatMap
        (elimList cw dom var w)).toFinset.card := by
  rw [eliminate_values]
  obtain ⟨h1, h2⟩ :=
    elimFold_spec cw dom var w (unassignedNeighbors cw var a) [] (by simp)
  rw [← List.toFinset_card_of_nodup h1, h2]
  simp

/-- C9: `backtrack` leaves the domain store untouched: its state-passing
rendering `backtrackS`, which threads `self.domains` through every
recursive call and into each sibling iteration, returns exactly the store
it was given together with `backtrack`'s result. -/
theorem backtrackS_frame (cw : Cw) : ∀ fuel a dom,
    backtrackS cw fuel a dom =
      (backtrack cw dom fuel a).map (fun r => (dom, r)) := by
  intro fuel
  induction fuel with
  | zero =>
    intro a dom
    rfl
  | succ fuel ih =>
    intro a dom
    rw [backtrackS, backtrack]
    by_cases hcomp : (a.length == cw.vars.length) = true
    · rw [if_pos hcomp, if_pos hcomp]
      rfl
    · rw [if_neg hcomp, if_neg hcomp]
      cases hsel : select_unassigned_variable cw dom a with
      | none => rfl
      | some var =>
        exact tryWordsS_frame cw var a (backtrackS cw fuel)
          (backtrack cw dom fuel) dom (fun a' => ih a' dom) (dom var)

/-- C10: `solve` is deterministic: two crosswords with the same variable
list, the same vocabulary and the same overlap map (the fixed iteration
orders of the model) produce identical outcomes under the same fuel. -/
theorem solve_deterministic (cw₁ cw₂ : Cw) (fuel : Nat)
    (hv : cw₁.vars = cw₂.vars) (hw : cw₁.words = cw₂.words)
    (ho : ∀ x y, cw₁.overlaps x y = cw₂.overlaps x y) :
    solve cw₁ fuel = solve cw₂ fuel := by
  obtain ⟨v₁, w₁, o₁⟩ := cw₁
  obtain ⟨v₂, w₂, o₂⟩ := cw₂
  simp only at hv hw ho
  subst hv
  subst hw
  have ho2 : o₁ = o₂ := funext (fun x => funext (fun y => ho x y))
  subst ho2
  rfl

/-- C10 witness: `solve_deterministic` comparing `cwA` with itself. -/
theorem solve_deterministic_witness :
    (cwA.vars = cwA.vars ∧ cwA.words = cwA.words) ∧
    solve cwA 3 = solve cwA 3 :=
  ⟨⟨rfl, rfl⟩, solve_deterministic cwA cwA 3 rfl rfl (fun _ _ => rfl)⟩

end CrosswordCSP
